import Mathlib

/-!
Verification of the résumé-analysis / job-ranking core of this repository
against its specification.

The Python source is shallowly embedded: dictionaries keyed by fixed field
names become structures, Python strings become Lean `String` (operated on
through their `List Char` data; the inputs of interest are ASCII, so ASCII
case folding and ASCII whitespace model Python's `str.lower`/`str.strip`),
and the ad hoc regular expression built by `keyword_in_text`
(`r'\b' + re.escape(kw).replace(r'\-', '[-\s]?') + r's?\b'`) is embedded as
an explicit token matcher: every keyword character is a literal
(case-insensitive) except a hyphen, which `re.escape` turns into `\-` and
the `.replace` then turns into the optional class `[-\s]?`; a trailing
optional `s` and word boundaries at both ends complete the pattern.
-/

/-! ## Character-level utilities -/

/-- Python whitespace (`\s`, `str.strip`) restricted to ASCII:
space, tab, newline, vertical tab, form feed, carriage return. -/
def pyWsChar (c : Char) : Bool :=
  c.toNat == 32 || c.toNat == 9 || c.toNat == 10 || c.toNat == 11 ||
  c.toNat == 12 || c.toNat == 13

/-- Regex word character (`\w`, hence `\b`) restricted to ASCII:
letters, digits, underscore. -/
def isWordCh (c : Char) : Bool :=
  (48 ≤ c.toNat && c.toNat ≤ 57) || (65 ≤ c.toNat && c.toNat ≤ 90) ||
  (97 ≤ c.toNat && c.toNat ≤ 122) || c.toNat == 95

/-- ASCII lower-casing of one character, as Python's `str.lower` acts on
ASCII input (`'A'`–`'Z'` shifted by 32, all else unchanged). -/
def lowCh (c : Char) : Char :=
  if 65 ≤ c.toNat && c.toNat ≤ 90 then Char.ofNat (c.toNat + 32) else c

/-- Lower-case a string character by character (Python `str.lower`). -/
def lowStr (l : List Char) : List Char := l.map lowCh

/-- Python `str.strip()`: drop leading and trailing whitespace. -/
def pyStrip (l : List Char) : List Char :=
  ((l.dropWhile pyWsChar).reverse.dropWhile pyWsChar).reverse

/-- Test whether `p` is a prefix of `l` (used by substring search and
by the embedding of `str.replace`). -/
def hasPre : List Char → List Char → Bool
  | [], _ => true
  | _ :: _, [] => false
  | p :: ps, c :: cs => p == c && hasPre ps cs

/-- Python's `in` on strings: does `pat` occur as a contiguous substring? -/
def hasSub : List Char → List Char → Bool
  | l, pat => hasPre pat l ||
      match l with
      | [] => false
      | _ :: rest => hasSub rest pat

/-- Python `str.replace(pat, rep)` with an explicit fuel argument so the
definition is structural (the fuel is set to the length of the string,
which each step consumes at least one character of). A left-to-right scan
replaces every non-overlapping occurrence; an empty pattern is treated as
"replace nothing" (the source only ever passes non-empty patterns). -/
def pyReplaceFuel (pat rep : List Char) : Nat → List Char → List Char
  | 0, l => l
  | _ + 1, [] => []
  | fuel + 1, c :: rest =>
    if pat ≠ [] && hasPre pat (c :: rest) then
      rep ++ pyReplaceFuel pat rep fuel ((c :: rest).drop pat.length)
    else
      c :: pyReplaceFuel pat rep fuel rest

/-- Python `str.replace(pat, rep)`. -/
def pyReplace (pat rep l : List Char) : List Char :=
  pyReplaceFuel pat rep l.length l

/-! ## The fuzzy keyword matcher of `filter_jobs_by_category`

`keyword_in_text(keyword, text)` compiles
`r'\b' + re.escape(keyword).replace(r'\-', '[-\s]?') + r's?\b'`
and runs `re.search(pattern, text, re.IGNORECASE)`. -/

/-- One compiled pattern element: a (case-folded) literal character, or
the optional class `[-\s]?` that a hyphen in the keyword becomes. -/
inductive KwTok where
  | lit (c : Char)
  | optHS
deriving Repr, DecidableEq

/-- Compile a keyword: every character is a case-folded literal except
`-`, which `re.escape` + `.replace(r'\-', '[-\s]?')` turns into the
optional hyphen-or-whitespace class. -/
def kwToks (kw : String) : List KwTok :=
  kw.data.map (fun c => if c == '-' then KwTok.optHS else KwTok.lit (lowCh c))

/-- Word-boundary test between two adjacent positions (`none` stands for
the edge of the string). -/
def bndB (a b : Option Char) : Bool :=
  (match a with | none => false | some c => isWordCh c) !=
  (match b with | none => false | some c => isWordCh c)

/-- Match the compiled keyword tokens against the text from the current
position, threading the previously consumed character (for boundary
checks) and a continuation for the pattern tail (`s?\b`). Disjunction over
the optional classes gives exactly the set of strings the regex accepts. -/
def matchToks : List KwTok → Option Char → List Char → (Option Char → List Char → Bool) → Bool
  | [], prev, rest, k => k prev rest
  | KwTok.lit _ :: _, _, [], _ => false
  | KwTok.lit c :: ts, _, d :: r, k => lowCh d == c && matchToks ts (some d) r k
  | KwTok.optHS :: ts, prev, rest, k =>
    matchToks ts prev rest k ||
      (match rest with
       | [] => false
       | d :: r => (d == '-' || pyWsChar d) && matchToks ts (some d) r k)

/-- The pattern tail `s?\b`: either a word boundary right here, or an
optional (case-insensitive) `s` followed by a word boundary. -/
def tailSB (prev : Option Char) (rest : List Char) : Bool :=
  bndB prev rest.head? ||
    (match rest with
     | d :: r => lowCh d == 's' && bndB (some d) r.head?
     | [] => false)

/-- Match the whole pattern (`\b`, the keyword tokens, `s?\b`) at one
position of the text. -/
def matchHere (toks : List KwTok) (prev : Option Char) (rest : List Char) : Bool :=
  bndB prev rest.head? && matchToks toks prev rest tailSB

/-- Try the pattern at every position, as `re.search` does. -/
def searchStart (toks : List KwTok) : Option Char → List Char → Bool
  | prev, [] => matchHere toks prev []
  | prev, d :: r => matchHere toks prev (d :: r) || searchStart toks (some d) r

/-- Embedding of `keyword_in_text` from `filter_jobs_by_category`:
`re.search` of the fuzzy word-boundary pattern, case-insensitively. -/
def keyword_in_text (keyword text : String) : Bool :=
  searchStart (kwToks keyword) none text.data

/-! ## Jobs, the category keyword table, scoring and ranking

Embedding of `filter_jobs_by_category` (App.py). A job dict is read
through `job.get(field, '') or ''` for the three text fields and
`job.get('tags', [])`, so it is modelled as a record of those fields. -/

/-- The fields of a job record that `filter_jobs_by_category` reads. -/
structure Job where
  title : String := ""
  description : String := ""
  company : String := ""
  tags : List String := []
deriving Repr, DecidableEq

/-- The static per-category keyword table of `filter_jobs_by_category`
(insertion order of the Python dict), each entry `(core, related)`. -/
def category_keywords : List (String × (List String × List String)) := [
  ("Java Developer", (["java", "spring", "jvm", "kotlin"],
    ["backend", "software", "developer", "engineer"])),
  ("Python Developer", (["python", "django", "flask"],
    ["backend", "software", "developer", "ai", "ml"])),
  ("Web Designing", (["web", "frontend", "ui", "ux", "html", "css"],
    ["react", "angular", "vue", "javascript", "designer"])),
  ("Full Stack Developer", (["full stack", "mern", "mean", "frontend", "backend"],
    ["react", "node", "express", "django", "api"])),
  ("Android Developer", (["android", "kotlin", "java", "mobile"],
    ["flutter", "compose"])),
  ("iOS Developer", (["ios", "swift", "swiftui", "xcode"],
    ["mobile", "app", "developer"])),
  ("Data Science", (["data", "scientist", "analytics", "analysis"],
    ["machine learning", "ml", "ai", "insight", "python", "sql"])),
  ("Machine Learning Engineer", (["machine learning", "ml", "ai", "neural"],
    ["pytorch", "tensorflow", "deep learning"])),
  ("AI Engineer", (["ai", "artificial intelligence", "ml", "deep learning"],
    ["llm", "nlp", "vision", "transformer"])),
  ("Data Engineer", (["data engineer", "pipeline", "etl", "big data"],
    ["airflow", "spark", "hadoop", "aws glue", "kafka"])),
  ("Business Analyst", (["business analyst", "data", "requirements", "insights"],
    ["excel", "tableau", "power bi"])),
  ("DevOps Engineer", (["devops", "ci/cd", "docker", "kubernetes"],
    ["aws", "azure", "gcp", "infrastructure", "terraform"])),
  ("Cloud Engineer", (["cloud", "aws", "azure", "gcp", "infrastructure"],
    ["devops", "serverless", "kubernetes", "docker"])),
  ("Site Reliability Engineer", (["sre", "reliability", "monitoring"],
    ["devops", "cloud", "automation"])),
  ("Network Security Engineer", (["network", "security", "cyber"],
    ["infosec", "pentesting", "firewall", "ethical hacking"])),
  ("Cybersecurity Analyst", (["cybersecurity", "security analyst", "threat", "incident"],
    ["vulnerability", "forensics", "malware", "siem"])),
  ("Ethical Hacker", (["ethical hacker", "pentest", "penetration testing"],
    ["bug bounty", "offensive security", "owasp"])),
  ("Blockchain Developer", (["blockchain", "web3", "solidity", "crypto"],
    ["ethereum", "smart contract", "defi"])),
  ("Web3 Developer", (["web3", "blockchain", "solidity"],
    ["dapp", "nft", "crypto"])),
  ("UI/UX Designer", (["ui", "ux", "figma", "design"],
    ["prototype", "wireframe", "adobe", "user research"])),
  ("Database", (["database", "dba", "sql"],
    ["oracle", "mongodb", "mysql", "postgresql"])),
  ("Testing", (["testing", "qa", "quality", "automation"],
    ["selenium", "software", "engineer"])),
  ("SAP Developer", (["sap", "erp"],
    ["developer", "abap"])),
  ("Operations Manager", (["operations", "manager"],
    ["project", "business", "process"]))]

/-- Dict lookup `category_keywords.get(predicted_category, {})`. -/
def categoryKeywordsOf (c : String) : Option (List String × List String) :=
  (category_keywords.find? (fun p => p.1 == c)).map (fun p => p.2)

/-- Replace each hyphen by a space (Python `.replace('-', ' ')`). -/
def dashToSpace (l : List Char) : List Char :=
  l.map (fun c => if c == '-' then ' ' else c)

/-- The lowercased, hyphen-normalized title:
`(job.get('title', '') or '').lower().replace('-', ' ')`. -/
def jobTitle (j : Job) : String :=
  ⟨dashToSpace (lowStr j.title.data)⟩

/-- Python `' '.join(strings)`. -/
def joinSpace : List String → List Char
  | [] => []
  | [s] => s.data
  | s :: ss => s.data ++ ' ' :: joinSpace ss

/-- The body blob `job_text = f"{title} {description} {company} {tags}"`,
with title and description lowercased and hyphen-normalized, company and
the space-joined tags lowercased. -/
def jobText (j : Job) : String :=
  ⟨dashToSpace (lowStr j.title.data) ++ ' ' ::
   (dashToSpace (lowStr j.description.data) ++ ' ' ::
    (lowStr j.company.data ++ ' ' :: lowStr (joinSpace j.tags)))⟩

/-- Number of keywords of `kws` that fuzzy-match in `text` (the loops add
a fixed weight per matching keyword, i.e. weight × this count). -/
def countKw (kws : List String) (text : String) : Nat :=
  (kws.filter (fun kw => keyword_in_text kw text)).length

/-- Title score: 5 per core keyword matched in the title, 2 per related. -/
def title_score (core related : List String) (j : Job) : Nat :=
  5 * countKw core (jobTitle j) + 2 * countKw related (jobTitle j)

/-- Body score: 3 per core keyword matched in `job_text`, 1 per related. -/
def body_score (core related : List String) (j : Job) : Nat :=
  3 * countKw core (jobText j) + 1 * countKw related (jobText j)

/-- Total score of a job. -/
def total_score (core related : List String) (j : Job) : Nat :=
  title_score core related j + body_score core related j

/-- The keep condition:
`has_core or has_strong_title (title_score >= 3) or total_score >= 4`. -/
def keepJob (core related : List String) (j : Job) : Bool :=
  core.any (fun kw => keyword_in_text kw (jobText j)) ||
  decide (3 ≤ title_score core related j) ||
  decide (4 ≤ total_score core related j)

/-- The `scored_jobs` list: each kept job paired with its total score, in
input order. -/
def scoredJobs (core related : List String) (jobs : List Job) : List (Job × Nat) :=
  jobs.filterMap (fun j =>
    if keepJob core related j then some (j, total_score core related j) else none)

/-- Insert into a descending-by-score list, before the first element of
smaller-or-equal score (so an element earlier in the input precedes
later elements of equal score). -/
def insertDesc (x : Job × Nat) : List (Job × Nat) → List (Job × Nat)
  | [] => [x]
  | y :: ys => if y.2 ≤ x.2 then x :: y :: ys else y :: insertDesc x ys

/-- Stable descending sort by score, the extensional behaviour of Python's
`scored_jobs.sort(key=lambda x: x[1], reverse=True)` (a stable sort that
orders by descending key; such a reordering is unique, so any stable
descending sort embeds it faithfully). -/
def sortJobsDesc : List (Job × Nat) → List (Job × Nat)
  | [] => []
  | x :: xs => insertDesc x (sortJobsDesc xs)

/-- The fallback-floor test `len(filtered_jobs) < max(3, len(jobs) * 0.2)`
with `k`, `n` naturals. Over the binary64 arithmetic Python uses,
`n * 0.2` equals the exact rational `n / 5` whenever `5 ∣ n` (the excess
`n · 2⁻⁵⁴ / 5` is below half an ulp in every binade), and otherwise lies
within one ulp of a point at distance `≥ 1/5` from every integer, so for
every list length below `2⁵²` the comparison with the integer `k` agrees
with the exact rational one: `k < max(3, n/5) ↔ k < 3 ∨ 5·k < n`. -/
def fallbackFloorHit (nKept nJobs : Nat) : Bool :=
  nKept < 3 || 5 * nKept < nJobs

/-- Embedding of `filter_jobs_by_category(jobs, predicted_category)`.
`predicted_category` is `Option String` (`None` and `""` are both falsy). -/
def filter_jobs_by_category (jobs : List Job) (predicted_category : Option String) : List Job :=
  if (match predicted_category with | none => true | some s => s == "") || jobs.isEmpty then
    jobs
  else
    let kws := categoryKeywordsOf (predicted_category.getD "")
    let core := (kws.map Prod.fst).getD []
    let related := (kws.map Prod.snd).getD []
    if core.isEmpty && related.isEmpty then jobs
    else
      let filtered := (sortJobsDesc (scoredJobs core related jobs)).map Prod.fst
      if fallbackFloorHit filtered.length jobs.length then jobs
      else if filtered.isEmpty then jobs else filtered

/-! ## Skill normalization and categorization (`categorize_skills`)

Embedding of `categorize_skills(skills)` and its inner `norm` from App.py.
Python sets of string literals become lists tested by membership. -/

/-- The `aliases` table of `categorize_skills`. -/
def skillAliases : List (String × String) := [
  ("reactjs", "react"), ("nextjs", "next.js"), ("nodejs", "node.js"),
  ("postgres", "postgresql"), ("ci cd", "ci/cd"), ("ci-cd", "ci/cd"),
  ("bs4", "beautifulsoup"), ("huggingface", "hugging face"),
  ("redux toolkit", "redux"), ("tailwindcss", "tailwind"),
  ("postgre", "postgresql"), ("google colaboratory", "google colab"),
  ("google-colab", "google colab"), ("visual studio code", "vs code")]

/-- Dict lookup `aliases.get(low, low)`. -/
def aliasGet (s : String) : String :=
  (((skillAliases.find? (fun p => p.1 == s))).map (fun p => p.2)).getD s

/-- The `langs` membership set. -/
def langs : List String :=
  ["python", "java", "javascript", "typescript", "go", "rust", "c", "c++",
   "c#", "kotlin", "swift", "ruby", "php", "r", "scala", "matlab"]

/-- The `frontend` membership set. -/
def frontend : List String :=
  ["html", "html5", "css", "css3", "react", "next.js", "angular", "vue",
   "svelte", "redux", "tailwind", "bootstrap", "sass", "less", "vite",
   "webpack", "babel"]

/-- The `backend` membership set. -/
def backend : List String :=
  ["node.js", "express", "django", "flask", "fastapi", "spring",
   "spring boot", "laravel", "rails", "graphql", "grpc", "rest", "openapi",
   "swagger"]

/-- The `libs` membership set. -/
def libs : List String :=
  ["numpy", "pandas", "scikit-learn", "sklearn", "matplotlib", "seaborn",
   "plotly", "tensorflow", "keras", "pytorch", "opencv", "xgboost",
   "lightgbm", "transformers", "hugging face", "langchain", "yolo",
   "pyspark", "spark", "nltk", "spacy", "streamlit"]

/-- The `dbs` membership set. -/
def dbs : List String :=
  ["sql", "mysql", "postgresql", "sqlite", "mongodb", "redis",
   "elasticsearch"]

/-- The `devops` membership set. -/
def devops : List String :=
  ["aws", "gcp", "azure", "docker", "kubernetes", "terraform", "git",
   "github", "gitlab", "github actions", "gitlab ci", "ci/cd", "linux",
   "bash", "shell", "nginx"]

/-- The `mobile` membership set. -/
def mobile : List String :=
  ["android", "ios", "react native", "swiftui", "flutter", "firebase",
   "supabase"]

/-- The `tools` membership set. -/
def tools : List String :=
  ["postman", "selenium", "beautifulsoup", "power bi", "tableau", "excel",
   "airflow", "hive", "hadoop", "looker", "superset", "colab",
   "google colab", "vscode", "vs code", "powerpoint", "ms powerpoint",
   "api integration", "jupyter"]

/-- The `embedded` membership set. -/
def embedded : List String :=
  ["verilog", "vhdl", "systemverilog", "fpga", "pcb design",
   "circuit design", "embedded systems", "arm", "arm cortex-m", "stm32",
   "esp32", "raspberry pi", "msp430", "pic", "arduino"]

/-- The `soft` membership set. -/
def soft : List String :=
  ["communication", "leadership", "teamwork", "collaboration",
   "problem solving", "time management", "adaptability",
   "critical thinking"]

/-- The `concepts` membership set. -/
def concepts : List String :=
  ["data analysis", "operating systems", "os", "networking fundamentals"]

/-- Embedding of the inner `norm(s)` of `categorize_skills` (named
`normSkill` here because plain `norm` is ambiguous with the ambient
library): strip, `None` on empty, lowercase, alias lookup, then the three
compound-term `replace` rules; returns the pair `(low, s0)` of normalized
and original-cased (stripped) string. -/
def normSkill (s : String) : Option (String × String) :=
  if pyStrip s.data = [] then none
  else some (⟨pyReplace "node js".data "node.js".data
      (pyReplace "next js".data "next.js".data
        (pyReplace "react.js".data "react".data
          (aliasGet ⟨lowStr (pyStrip s.data)⟩).data))⟩,
    ⟨pyStrip s.data⟩)

/-- Normalized component of `norm` (the spec's `normalize`). -/
def normalized (s : String) : Option String := (normSkill s).map Prod.fst

/-- The fixed category display order (insertion order of the `categories`
dict). -/
def categoryNames : List String :=
  ["Languages", "Frontend", "Backend", "Libraries / Data-ML", "Databases",
   "Cloud / DevOps", "Mobile", "Tools / Platforms", "Embedded / Hardware",
   "Concepts", "Soft Skills", "Other"]

/-- The if/elif dispatch of `categorize_skills`: first membership set that
contains the normalized skill wins; unmatched skills go to `Other`. -/
def assignCategory (low : String) : String :=
  if langs.contains low then "Languages"
  else if frontend.contains low then "Frontend"
  else if backend.contains low then "Backend"
  else if libs.contains low then "Libraries / Data-ML"
  else if dbs.contains low then "Databases"
  else if devops.contains low then "Cloud / DevOps"
  else if mobile.contains low then "Mobile"
  else if tools.contains low then "Tools / Platforms"
  else if embedded.contains low then "Embedded / Hardware"
  else if soft.contains low then "Soft Skills"
  else if concepts.contains low then "Concepts"
  else "Other"

/-- The bucket a category collects over the input loop: the original-cased
strings of the skills whose normalized form is assigned to `name`, in
input order. -/
def categoryBucket (name : String) (skills : List String) : List String :=
  skills.filterMap (fun s =>
    match normSkill s with
    | none => none
    | some (low, orig) => if assignCategory low == name then some orig else none)

/-- The de-duplication pass of `categorize_skills` (a `seen` set plus an
`ordered` list): keep the first occurrence of each string. -/
def dedupFirstAux (seen : List String) : List String → List String
  | [] => []
  | x :: xs =>
    if seen.contains x then dedupFirstAux seen xs
    else x :: dedupFirstAux (x :: seen) xs

/-- Keep the first occurrence of each string. -/
def dedupFirst (l : List String) : List String := dedupFirstAux [] l

/-- Embedding of `categorize_skills(skills)`: buckets in dict order,
empty categories dropped, each kept bucket de-duplicated preserving
order. -/
def categorize_skills (skills : List String) : List (String × List String) :=
  categoryNames.filterMap (fun name =>
    if categoryBucket name skills = [] then none
    else some (name, dedupFirst (categoryBucket name skills)))

/-! ## Merging job sources (`_fetch_all_jobs`)

Embedding of the mapping + URL-deduplication core of `_fetch_all_jobs`,
with the two provider result lists (already defaulted to `[]` by the
`or []` at the call sites) as parameters. Provider dicts are read through
`j.get(key, default)`, so provider fields are `Option`s. -/

/-- A raw Jooble record as `map_jooble` reads it. -/
structure JoobleRec where
  title : Option String := none
  company : Option String := none
  location : Option String := none
  snippet : Option String := none
  link : Option String := none
deriving Repr, DecidableEq

/-- A raw scraper record as `map_scraper` reads it. -/
structure ScraperRec where
  title : Option String := none
  company : Option String := none
  location : Option String := none
  tags : Option (List String) := none
  description : Option String := none
  url : Option String := none
  source : Option String := none
deriving Repr, DecidableEq

/-- The common `JobListing` schema produced by the two mappers. -/
structure MergedJob where
  title : String
  company : String
  location : String
  tags : List String
  description : String
  url : String
  source : String
deriving Repr, DecidableEq

/-- Python `x or "Remote"` on a string: replace a falsy (empty) value. -/
def orRemote (s : String) : String := if s == "" then "Remote" else s

/-- Embedding of `map_jooble`: note the `"#"` default for a missing
`link`. -/
def map_jooble (j : JoobleRec) : MergedJob :=
  { title := j.title.getD "", company := j.company.getD "",
    location := orRemote (j.location.getD ""), tags := [],
    description := j.snippet.getD "", url := j.link.getD "#",
    source := "jooble" }

/-- Embedding of `map_scraper`: note the `"#"` default for a missing
`url`. -/
def map_scraper (j : ScraperRec) : MergedJob :=
  { title := j.title.getD "", company := j.company.getD "",
    location := orRemote (j.location.getD ""), tags := j.tags.getD [],
    description := j.description.getD "", url := j.url.getD "#",
    source := j.source.getD "scraper" }

/-- The deduplication loop of `_fetch_all_jobs`: skip a record whose URL
is falsy (empty) or already seen, otherwise keep it and remember its
URL. -/
def dedupByUrlAux (seen : List String) : List MergedJob → List MergedJob
  | [] => []
  | j :: rest =>
    if j.url == "" || seen.contains j.url then dedupByUrlAux seen rest
    else j :: dedupByUrlAux (j.url :: seen) rest

/-- Embedding of the merge step of `_fetch_all_jobs`: map both sources
into the common schema, concatenate Jooble first, deduplicate by URL. -/
def fetch_all_jobs_merge (jooble_jobs : List JoobleRec)
    (scraped_jobs : List ScraperRec) : List MergedJob :=
  dedupByUrlAux [] (jooble_jobs.map map_jooble ++ scraped_jobs.map map_scraper)

/-! ## The Jooble API client (`fetch_jobs_from_jooble`)

The network is abstracted: each of the two page requests either raises
(`Except.error`, covering both `requests` exceptions and JSON decoding
errors — every exception is caught and turned into `None`) or yields an
HTTP status code and the decoded `jobs` list. The loop body skips a page
whose status is not 200 (`continue`) and extends the accumulator when the
page's job list is non-empty (extending with an empty list is the same);
an exception at page 1 aborts before page 2 is requested. -/

/-- Embedding of `JobAPIService.fetch_jobs_from_jooble`, parameterized by
the outcome of the two page requests. -/
def fetch_jobs_from_jooble {α : Type} (page1 page2 : Except Unit (Nat × List α)) :
    Option (List α) :=
  match page1 with
  | Except.error _ => none
  | Except.ok (status1, jobs1) =>
    let acc1 := if status1 == 200 then jobs1 else []
    match page2 with
    | Except.error _ => none
    | Except.ok (status2, jobs2) =>
      let acc2 := acc1 ++ (if status2 == 200 then jobs2 else [])
      let jobs := acc2.take 10
      if jobs.isEmpty then none else some jobs

/-! ## Helper lemmas about the ranking pipeline -/

theorem scoredJobs_eq (core related : List String) (jobs : List Job) :
    scoredJobs core related jobs =
      (jobs.filter (keepJob core related)).map
        (fun j => (j, total_score core related j)) := by
  induction jobs with
  | nil => rfl
  | cons j js ih =>
    by_cases h : keepJob core related j
    all_goals simp only [scoredJobs, List.filterMap_cons, List.filter_cons, h,
      List.map_cons, Bool.false_eq_true, ite_false, ite_true]
    all_goals simpa [scoredJobs] using ih

theorem length_insertDesc (x : Job × Nat) (l : List (Job × Nat)) :
    (insertDesc x l).length = l.length + 1 := by
  induction l with
  | nil => rfl
  | cons y ys ih => simp only [insertDesc]; split <;> simp [ih]

theorem length_sortJobsDesc (l : List (Job × Nat)) :
    (sortJobsDesc l).length = l.length := by
  induction l with
  | nil => rfl
  | cons x xs ih => simp [sortJobsDesc, length_insertDesc, ih]

theorem mem_insertDesc (a x : Job × Nat) (l : List (Job × Nat)) :
    a ∈ insertDesc x l ↔ a = x ∨ a ∈ l := by
  induction l with
  | nil => simp [insertDesc]
  | cons y ys ih =>
    simp only [insertDesc]
    split
    all_goals simp [ih]
    tauto

theorem mem_sortJobsDesc (a : Job × Nat) (l : List (Job × Nat)) :
    a ∈ sortJobsDesc l ↔ a ∈ l := by
  induction l with
  | nil => simp [sortJobsDesc]
  | cons x xs ih => simp [sortJobsDesc, mem_insertDesc, ih]

theorem filter_insertDesc (x : Job × Nat) (l : List (Job × Nat)) (s : Nat) :
    (insertDesc x l).filter (fun y => y.2 == s) =
      if x.2 == s then x :: l.filter (fun y => y.2 == s)
      else l.filter (fun y => y.2 == s) := by
  induction l with
  | nil => simp only [insertDesc]; by_cases hx : x.2 == s <;> simp_all [List.filter_cons]
  | cons y ys ih =>
    simp only [insertDesc]
    split
    · by_cases hx : x.2 == s <;> by_cases hy : y.2 == s <;>
        simp_all [List.filter_cons]
    · rename_i hcond
      by_cases hx : x.2 == s
      · have hxs : x.2 = s := by simpa using hx
        have hy : (y.2 == s) = false := by
          simp only [beq_eq_false_iff_ne]
          omega
        simp_all [List.filter_cons]
      · by_cases hy : y.2 == s <;> simp_all [List.filter_cons]

theorem filter_sortJobsDesc (l : List (Job × Nat)) (s : Nat) :
    (sortJobsDesc l).filter (fun y => y.2 == s) =
      l.filter (fun y => y.2 == s) := by
  induction l with
  | nil => rfl
  | cons x xs ih =>
    simp only [sortJobsDesc, filter_insertDesc, List.filter_cons, ih]

theorem sorted_insertDesc (x : Job × Nat) (l : List (Job × Nat))
    (h : List.Pairwise (fun a b : Job × Nat => b.2 ≤ a.2) l) :
    List.Pairwise (fun a b : Job × Nat => b.2 ≤ a.2) (insertDesc x l) := by
  induction l with
  | nil => simp [insertDesc]
  | cons y ys ih =>
    rw [List.pairwise_cons] at h
    simp only [insertDesc]
    split
    · rename_i hcond
      rw [List.pairwise_cons]
      refine ⟨?_, List.pairwise_cons.mpr h⟩
      intro b hb
      rcases List.mem_cons.mp hb with rfl | hb
      · exact hcond
      · exact le_trans (h.1 b hb) hcond
    · rename_i hcond
      rw [List.pairwise_cons]
      refine ⟨?_, ih h.2⟩
      intro b hb
      rcases (mem_insertDesc b x ys).mp hb with rfl | hb
      · omega
      · exact h.1 b hb

theorem sorted_sortJobsDesc (l : List (Job × Nat)) :
    List.Pairwise (fun a b : Job × Nat => b.2 ≤ a.2) (sortJobsDesc l) := by
  induction l with
  | nil => simp [sortJobsDesc]
  | cons x xs ih => exact sorted_insertDesc x _ ih

theorem categoryKeywordsOf_props {c : String} {core related : List String}
    (h : categoryKeywordsOf c = some (core, related)) :
    c ≠ "" ∧ core ≠ [] := by
  unfold categoryKeywordsOf at h
  rcases Option.map_eq_some'.mp h with ⟨q, hfind, hq⟩
  have hmem := List.mem_of_find?_eq_some hfind
  have hpred := List.find?_some hfind
  have hall : ∀ p ∈ category_keywords, p.1 ≠ "" ∧ p.2.1 ≠ [] := by decide
  have hqc : q.1 = c := by simpa using hpred
  refine ⟨hqc ▸ (hall q hmem).1, ?_⟩
  have h2 : q.2.1 = core := by rw [hq]
  exact h2 ▸ (hall q hmem).2

theorem mem_scored_snd {core related : List String} {jobs : List Job}
    {p : Job × Nat} (hp : p ∈ scoredJobs core related jobs) :
    p.2 = total_score core related p.1 := by
  rw [scoredJobs_eq] at hp
  rcases List.mem_map.mp hp with ⟨a, _, rfl⟩
  rfl

theorem filter_jobs_eq_filtered {jobs : List Job} {c : String}
    {core related : List String}
    (hlook : categoryKeywordsOf c = some (core, related))
    (hnf : fallbackFloorHit ((jobs.filter (keepJob core related)).length)
      jobs.length = false) :
    filter_jobs_by_category jobs (some c) =
      (sortJobsDesc (scoredJobs core related jobs)).map Prod.fst := by
  obtain ⟨hc, hcore⟩ := categoryKeywordsOf_props hlook
  have hkept3 : 3 ≤ (jobs.filter (keepJob core related)).length := by
    by_contra hlt
    simp only [fallbackFloorHit, Bool.or_eq_false_iff, decide_eq_false_iff_not,
      Nat.not_lt] at hnf
    omega
  have hjobs : jobs.isEmpty = false := by
    rcases jobs with _ | ⟨j, js⟩
    · simp at hkept3
    · rfl
  have hlen : ((sortJobsDesc (scoredJobs core related jobs)).map Prod.fst).length
      = (jobs.filter (keepJob core related)).length := by
    rw [List.length_map, length_sortJobsDesc, scoredJobs_eq, List.length_map]
  have hc' : (c == "") = false := beq_eq_false_iff_ne.mpr hc
  have hcoreE : core.isEmpty = false := by
    rcases core with _ | _
    · exact absurd rfl hcore
    · rfl
  have hfE : ((sortJobsDesc (scoredJobs core related jobs)).map Prod.fst).isEmpty
      = false := by
    rcases hmt : (sortJobsDesc (scoredJobs core related jobs)).map Prod.fst with _ | _
    · rw [hmt] at hlen; simp at hlen; omega
    · rfl
  simp only [filter_jobs_by_category, hc', hjobs, Bool.or_false,
    Bool.false_eq_true, if_false, Option.getD_some, hlook, Option.map_some',
    hcoreE, Bool.false_and, hlen, hnf, hfE]

/-! ## Claim C1 — the fuzzy matcher's tolerance -/

/-- C1: the claim states that `keyword_in_text("full stack", t)` succeeds
both for `t = "full-stack"` and `t = "full stacks"`. It fails for
`"full-stack"`: `re.escape` turns the space of the keyword into a literal
space and only a hyphen in the *keyword* becomes the tolerant class
`[-\s]?`, so the hyphenated text does not match. -/
theorem C1_counterexample :
    keyword_in_text "full stack" "full-stack" = false := by decide

/-- C1 (amended): `keyword_in_text("full stack", t)` succeeds for
`t = "full stacks"` (trailing-`s` tolerance) and case-insensitively with
word boundaries, but fails for `t = "full-stack"`; hyphen variation in
the text is instead handled by the caller, which replaces `-` with a
space in the title (and description) before matching. -/
theorem C1_amended :
    keyword_in_text "full stack" "full stacks" = true ∧
    keyword_in_text "full stack" "FULL STACK developer" = true ∧
    keyword_in_text "full stack" "full-stack" = false ∧
    keyword_in_text "full stack" (jobTitle { title := "Full-Stack Engineer" }) = true ∧
    keyword_in_text "full stack" "fullstack" = false ∧
    keyword_in_text "full stack" "full stacked" = false := by
  exact ⟨by decide, by decide, by decide, by decide, by decide, by decide⟩

/-! ## Claims C2, C3, C4 — filtering, keeping, scoring, sorting -/

/-- C2: for every non-empty job list and every category present in the
keyword table, if the number of jobs passing the keep-condition is below
the floor `max(3, 0.2·len(jobs))`, then `filter_jobs_by_category` returns
exactly the original input list. -/
theorem C2_fallback_floor_returns_input (jobs : List Job) (c : String)
    (core related : List String) (hne : jobs ≠ [])
    (hlook : categoryKeywordsOf c = some (core, related))
    (hfloor : fallbackFloorHit ((jobs.filter (keepJob core related)).length)
      jobs.length = true) :
    filter_jobs_by_category jobs (some c) = jobs := by
  obtain ⟨hc, hcore⟩ := categoryKeywordsOf_props hlook
  have hc' : (c == "") = false := beq_eq_false_iff_ne.mpr hc
  have hcoreE : core.isEmpty = false := by
    rcases core with _ | _
    · exact absurd rfl hcore
    · rfl
  have hjobs : jobs.isEmpty = false := by
    rcases jobs with _ | _
    · exact absurd rfl hne
    · rfl
  have hlen : ((sortJobsDesc (scoredJobs core related jobs)).map Prod.fst).length
      = (jobs.filter (keepJob core related)).length := by
    rw [List.length_map, length_sortJobsDesc, scoredJobs_eq, List.length_map]
  simp only [filter_jobs_by_category, hc', hjobs, Bool.or_false,
    Bool.false_eq_true, if_false, Option.getD_some, hlook, Option.map_some',
    hcoreE, Bool.false_and, hlen, hfloor, if_true]

/-- C2 witness: a one-job list in which the job matches nothing keeps 0
jobs, which is below the floor, so the input comes back unchanged. -/
theorem C2_witness :
    filter_jobs_by_category [{ title := "Chef" }] (some "Python Developer")
      = [{ title := "Chef" }] :=
  C2_fallback_floor_returns_input _ "Python Developer"
    ["python", "django", "flask"] ["backend", "software", "developer", "ai", "ml"]
    (by decide) (by decide) (by decide)

/-- C3: when the fallback floor is not hit, a job is in the output iff it
is in the input and passes the keep-condition (a core keyword matches in
the body, or `title_score ≥ 3`, or `total_score ≥ 4`). -/
theorem C3_kept_iff (jobs : List Job) (c : String) (core related : List String)
    (hlook : categoryKeywordsOf c = some (core, related))
    (hnf : fallbackFloorHit ((jobs.filter (keepJob core related)).length)
      jobs.length = false) (j : Job) :
    j ∈ filter_jobs_by_category jobs (some c) ↔
      j ∈ jobs ∧ keepJob core related j = true := by
  rw [filter_jobs_eq_filtered hlook hnf]
  simp only [List.mem_map]
  constructor
  · rintro ⟨p, hp, rfl⟩
    have hp' := (mem_sortJobsDesc p _).mp hp
    rw [scoredJobs_eq] at hp'
    rcases List.mem_map.mp hp' with ⟨a, ha, rfl⟩
    exact ⟨(List.mem_filter.mp ha).1, (List.mem_filter.mp ha).2⟩
  · rintro ⟨hj, hk⟩
    refine ⟨(j, total_score core related j), ?_, rfl⟩
    rw [mem_sortJobsDesc, scoredJobs_eq]
    exact List.mem_map.mpr ⟨j, List.mem_filter.mpr ⟨hj, hk⟩, rfl⟩

/-- C3 witness: with three all-matching jobs the floor is not hit, and
membership in the output is equivalent to membership-plus-keep. -/
theorem C3_witness :
    (({ title := "Python Developer" } : Job) ∈
      filter_jobs_by_category
        [{ title := "Python Developer" }, { title := "Python Engineer" },
         { title := "Django Developer" }] (some "Python Developer")) ↔
      (({ title := "Python Developer" } : Job) ∈
        [({ title := "Python Developer" } : Job), { title := "Python Engineer" },
         { title := "Django Developer" }] ∧
       keepJob ["python", "django", "flask"]
         ["backend", "software", "developer", "ai", "ml"]
         { title := "Python Developer" } = true) :=
  C3_kept_iff _ "Python Developer" _ _ (by decide) (by decide) _

/-- C4: every job's total score is title score plus body score with
weights 5/2 (core/related in title) and 3/1 (core/related in body); the
kept jobs come back sorted by descending total score; and for every score
value the jobs carrying it appear in input order (stability). -/
theorem C4_scores_sorted_stable (jobs : List Job) (c : String)
    (core related : List String)
    (hlook : categoryKeywordsOf c = some (core, related))
    (hnf : fallbackFloorHit ((jobs.filter (keepJob core related)).length)
      jobs.length = false) :
    (∀ j : Job, total_score core related j =
        (5 * countKw core (jobTitle j) + 2 * countKw related (jobTitle j)) +
        (3 * countKw core (jobText j) + 1 * countKw related (jobText j))) ∧
    List.Pairwise
      (fun a b => total_score core related b ≤ total_score core related a)
      (filter_jobs_by_category jobs (some c)) ∧
    ∀ s : Nat, (filter_jobs_by_category jobs (some c)).filter
        (fun j => total_score core related j == s) =
      (jobs.filter (keepJob core related)).filter
        (fun j => total_score core related j == s) := by
  refine ⟨fun j => rfl, ?_, ?_⟩
  · rw [filter_jobs_eq_filtered hlook hnf, List.pairwise_map]
    refine List.Pairwise.imp_of_mem ?_
      (sorted_sortJobsDesc (scoredJobs core related jobs))
    intro a b ha hb hab
    rw [mem_sortJobsDesc] at ha hb
    rw [mem_scored_snd ha, mem_scored_snd hb] at hab
    exact hab
  · intro s
    rw [filter_jobs_eq_filtered hlook hnf, List.filter_map]
    have hcong : (sortJobsDesc (scoredJobs core related jobs)).filter
        ((fun j => total_score core related j == s) ∘ Prod.fst) =
        (sortJobsDesc (scoredJobs core related jobs)).filter
          (fun p => p.2 == s) := by
      refine List.filter_congr ?_
      intro p hp
      rw [mem_sortJobsDesc] at hp
      simp [Function.comp, mem_scored_snd hp]
    rw [hcong, filter_sortJobsDesc, scoredJobs_eq, List.filter_map,
      List.map_map]
    have : ((jobs.filter (keepJob core related)).filter
        ((fun p : Job × Nat => p.2 == s) ∘ fun j => (j, total_score core related j))) =
        (jobs.filter (keepJob core related)).filter
          (fun j => total_score core related j == s) := rfl
    rw [this]
    have hid : (Prod.fst ∘ fun j : Job => (j, total_score core related j)) = id := rfl
    simp [hid]

/-- C4 witness: the sortedness conjunct at a concrete three-job list. -/
theorem C4_witness :
    List.Pairwise
      (fun a b => total_score ["python", "django", "flask"]
          ["backend", "software", "developer", "ai", "ml"] b ≤
        total_score ["python", "django", "flask"]
          ["backend", "software", "developer", "ai", "ml"] a)
      (filter_jobs_by_category
        [{ title := "Python Developer" }, { title := "Python Engineer" },
         { title := "Django Developer" }] (some "Python Developer")) :=
  (C4_scores_sorted_stable _ "Python Developer" _ _ (by decide) (by decide)).2.1

/-! ## Claim C6 — unknown or missing category -/

/-- C6: when the predicted category is null, empty, or absent from the
keyword table, `filter_jobs_by_category` returns the input unchanged. -/
theorem C6_unknown_category_unchanged (jobs : List Job) (pc : Option String)
    (h : pc = none ∨ pc = some "" ∨
      ∃ c, pc = some c ∧ categoryKeywordsOf c = none) :
    filter_jobs_by_category jobs pc = jobs := by
  rcases h with rfl | rfl | ⟨c, rfl, hc⟩
  · rfl
  · rfl
  · by_cases hce : c = ""
    · subst hce
      rfl
    · have hc' : (c == "") = false := beq_eq_false_iff_ne.mpr hce
      by_cases hj : jobs.isEmpty
      · simp only [filter_jobs_by_category, hj, Bool.or_true, if_true]
      · simp only [filter_jobs_by_category, hc',
          Bool.false_or, hj, Option.getD_some, hc, Option.map_none',
          Option.getD_none, List.isEmpty_nil, Bool.and_self, if_true,
          Bool.false_eq_true, if_false]

/-- C6 witness: a category absent from the table leaves the list as is. -/
theorem C6_witness :
    filter_jobs_by_category [{ title := "X" }] (some "Banana")
      = [{ title := "X" }] :=
  C6_unknown_category_unchanged _ _ (Or.inr (Or.inr ⟨"Banana", rfl, by decide⟩))

/-! ## Claim C5 — merge deduplication by URL -/

theorem dedupByUrlAux_filter (u : String) (hu : u ≠ "") (l : List MergedJob) :
    ∀ seen : List String,
      (dedupByUrlAux seen l).filter (fun j => j.url == u) =
        if u ∈ seen then [] else (l.filter (fun j => j.url == u)).take 1 := by
  induction l with
  | nil =>
    intro seen
    by_cases h : u ∈ seen <;> simp [dedupByUrlAux, h]
  | cons j rest ih =>
    intro seen
    by_cases hje : j.url = ""
    · have hju : (j.url == u) = false :=
        beq_eq_false_iff_ne.mpr (by rw [hje]; exact fun h => hu h.symm)
      simp only [dedupByUrlAux]
      rw [if_pos (by simp [hje]), ih seen]
      simp [List.filter_cons, hju]
    · by_cases hjs : j.url ∈ seen
      · simp only [dedupByUrlAux]
        rw [if_pos (by simp [hjs]), ih seen]
        by_cases hsu : u ∈ seen
        · simp [hsu]
        · have hju : (j.url == u) = false :=
            beq_eq_false_iff_ne.mpr (fun h => hsu (h ▸ hjs))
          simp [hsu, List.filter_cons, hju]
      · simp only [dedupByUrlAux]
        rw [if_neg (by simp [hje, hjs])]
        by_cases hju : j.url = u
        · have hsu : u ∉ seen := fun h => hjs (hju ▸ h)
          have h1 : (j.url == u) = true := by simp [hju]
          have h2 : u ∈ j.url :: seen := by simp [hju]
          rw [List.filter_cons, if_pos (by simp [h1]), ih (j.url :: seen)]
          simp [List.filter_cons, h1, h2, hsu]
        · have h1 : (j.url == u) = false := beq_eq_false_iff_ne.mpr hju
          have h2 : (u ∈ j.url :: seen) ↔ u ∈ seen := by
            simp only [List.mem_cons]
            constructor
            · rintro (rfl | h)
              · exact absurd rfl hju
              · exact h
            · exact Or.inr
          rw [List.filter_cons, if_neg (by simp [h1]), ih (j.url :: seen)]
          by_cases hsu : u ∈ seen
          · simp [h2, hsu]
          · simp [h2, hsu, List.filter_cons, h1]

theorem dedupByUrlAux_no_empty (l : List MergedJob) :
    ∀ seen : List String, ∀ j ∈ dedupByUrlAux seen l, j.url ≠ "" := by
  induction l with
  | nil =>
    intro seen j hj
    simp [dedupByUrlAux] at hj
  | cons x rest ih =>
    intro seen j hj
    simp only [dedupByUrlAux] at hj
    by_cases hxe : x.url = ""
    · rw [if_pos (by simp [hxe])] at hj
      exact ih seen j hj
    · by_cases hxs : x.url ∈ seen
      · rw [if_pos (by simp [hxs])] at hj
        exact ih seen j hj
      · rw [if_neg (by simp [hxe, hxs])] at hj
        rcases List.mem_cons.mp hj with rfl | hj
        · exact hxe
        · exact ih (x.url :: seen) j hj

theorem dedupByUrlAux_sublist (l : List MergedJob) :
    ∀ seen : List String, (dedupByUrlAux seen l).Sublist l := by
  induction l with
  | nil =>
    intro seen
    simp [dedupByUrlAux]
  | cons x rest ih =>
    intro seen
    simp only [dedupByUrlAux]
    split
    · exact (ih seen).cons x
    · exact (ih (x.url :: seen)).cons₂ x

/-- C5: the claim states that the merge deduplicates by URL keeping first
occurrences and drops every record with an empty or missing URL. A record
with a *missing* URL is not dropped: `map_jooble`/`map_scraper` default a
missing `link`/`url` to the placeholder `"#"`, which is truthy, so the
first such record is kept in the output. -/
theorem C5_counterexample :
    fetch_all_jobs_merge [] [{ }] =
      [{ title := "", company := "", location := "Remote", tags := [],
         description := "", url := "#", source := "scraper" }] ∧
    fetch_all_jobs_merge [] [{ }] ≠ [] := by
  exact ⟨by decide, by decide⟩

/-- C5 (amended): the merge output contains each distinct non-empty URL
exactly once — the filter by any non-empty URL equals the first matching
record of the Jooble-then-scraper concatenation — and is a subsequence of
that concatenation; records with an *empty* URL are dropped, while a
record with a *missing* URL field is mapped to the placeholder URL `"#"`
and deduplicated under it like any other URL. -/
theorem C5_dedup_amended (jooble_jobs : List JoobleRec)
    (scraped_jobs : List ScraperRec) :
    (∀ j ∈ fetch_all_jobs_merge jooble_jobs scraped_jobs, j.url ≠ "") ∧
    (∀ u : String, u ≠ "" →
      (fetch_all_jobs_merge jooble_jobs scraped_jobs).filter
          (fun j => j.url == u) =
        ((jooble_jobs.map map_jooble ++ scraped_jobs.map map_scraper).filter
          (fun j => j.url == u)).take 1) ∧
    (fetch_all_jobs_merge jooble_jobs scraped_jobs).Sublist
      (jooble_jobs.map map_jooble ++ scraped_jobs.map map_scraper) := by
  refine ⟨?_, ?_, ?_⟩
  · exact dedupByUrlAux_no_empty _ []
  · intro u hu
    rw [fetch_all_jobs_merge, dedupByUrlAux_filter u hu _ []]
    simp
  · exact dedupByUrlAux_sublist _ []

/-- C5 witness: two Jooble records and one scraper record share a URL;
the merged output keeps exactly the first occurrence. -/
theorem C5_witness :
    (fetch_all_jobs_merge
        [{ link := some "https://a", title := some "J1" },
         { link := some "https://a", title := some "J2" }]
        [{ url := some "https://a", title := some "S1" }]).filter
        (fun j => j.url == "https://a") =
      (([{ link := some "https://a", title := some "J1" },
         { link := some "https://a", title := some "J2" }].map map_jooble ++
        [({ url := some "https://a", title := some "S1" } : ScraperRec)].map
          map_scraper).filter (fun j => j.url == "https://a")).take 1 :=
  (C5_dedup_amended _ _).2.1 "https://a" (by decide)

/-! ## Claim C10 — Jooble fetch result shape -/

/-- C10: `fetch_jobs_from_jooble` returns either `None` or a non-empty
list of at most 10 records, never an empty list (the model's totality is
the embedded counterpart of "never raises": every exception path is
caught and becomes `None`); an exception on either page, both pages
non-200, or both pages returning no jobs all yield `None`. -/
theorem C10_jooble_shape {α : Type} (page1 page2 : Except Unit (Nat × List α)) :
    (fetch_jobs_from_jooble page1 page2 = none ∨
      ∃ l, fetch_jobs_from_jooble page1 page2 = some l ∧ l ≠ [] ∧
        l.length ≤ 10) ∧
    (∀ e, page1 = Except.error e → fetch_jobs_from_jooble page1 page2 = none) ∧
    (∀ e, page2 = Except.error e → fetch_jobs_from_jooble page1 page2 = none) ∧
    (∀ s1 j1 s2 j2, page1 = Except.ok (s1, j1) → page2 = Except.ok (s2, j2) →
      s1 ≠ 200 → s2 ≠ 200 → fetch_jobs_from_jooble page1 page2 = none) ∧
    (∀ s1 s2, page1 = Except.ok (s1, []) → page2 = Except.ok (s2, []) →
      fetch_jobs_from_jooble page1 page2 = none) := by
  refine ⟨?_, ?_, ?_, ?_, ?_⟩
  · rcases page1 with e1 | ⟨s1, j1⟩
    · exact Or.inl rfl
    · rcases page2 with e2 | ⟨s2, j2⟩
      · exact Or.inl rfl
      · simp only [fetch_jobs_from_jooble]
        rcases hE : (((if s1 == 200 then j1 else []) ++
            (if s2 == 200 then j2 else [])).take 10).isEmpty with _ | _
        · refine Or.inr ⟨_, rfl, ?_, List.length_take_le 10 _⟩
          intro hnil
          rw [hnil] at hE
          simp at hE
        · exact Or.inl rfl
  · intro e he
    subst he
    rfl
  · intro e he
    subst he
    rcases page1 with e1 | ⟨s1, j1⟩ <;> rfl
  · intro s1 j1 s2 j2 h1 h2 hs1 hs2
    subst h1
    subst h2
    have e1 : (s1 == 200) = false := by simpa using hs1
    have e2 : (s2 == 200) = false := by simpa using hs2
    simp [fetch_jobs_from_jooble, e1, e2]
  · intro s1 s2 h1 h2
    subst h1
    subst h2
    have e1 : (if (s1 == 200) = true then ([] : List α) else []) = [] := by
      split <;> rfl
    have e2 : (if (s2 == 200) = true then ([] : List α) else []) = [] := by
      split <;> rfl
    simp [fetch_jobs_from_jooble, e1, e2]

/-- C10 witness: a failing first page and a 200 second page with jobs
still gives `None` (one extraction of the theorem at concrete input). -/
theorem C10_witness :
    fetch_jobs_from_jooble (Except.error ())
      (Except.ok (200, ["job1"])) = none :=
  (C10_jooble_shape (Except.error ()) (Except.ok (200, ["job1"]))).2.1 () rfl

/-! ## Claim C8 — the categorization scenario -/

/-- C8: the concrete scenario: `["ReactJS", "Node JS", "python", "SQL"]`
categorizes to Languages `["python"]`, Frontend `["ReactJS"]` (alias
`reactjs → react`), Backend `["Node JS"]` (`node js → node.js`), and
Databases `["SQL"]`, with original casing preserved. -/
theorem C8_scenario :
    categorize_skills ["ReactJS", "Node JS", "python", "SQL"] =
      [("Languages", ["python"]), ("Frontend", ["ReactJS"]),
       ("Backend", ["Node JS"]), ("Databases", ["SQL"])] := by
  decide

/-! ## Character and string lemmas for normalization -/

theorem toNat_ofNat_small {n : Nat} (h : n < 55296) : (Char.ofNat n).toNat = n := by
  have hv : n < 55296 ∨ 57343 < n ∧ n < 1114112 := Or.inl h
  simp [Char.ofNat, hv, Char.ofNatAux, Char.toNat, UInt32.toNat,
    BitVec.toNat_ofNatLt]

theorem lowCh_toNat_upper {c : Char} (h1 : 65 ≤ c.toNat) (h2 : c.toNat ≤ 90) :
    (lowCh c).toNat = c.toNat + 32 := by
  have hb : (65 ≤ c.toNat && c.toNat ≤ 90) = true := by simp [h1, h2]
  simp only [lowCh, hb, if_true]
  exact toNat_ofNat_small (by omega)

theorem lowCh_eq_self {c : Char} (h : ¬(65 ≤ c.toNat ∧ c.toNat ≤ 90)) :
    lowCh c = c := by
  simp only [lowCh]
  rw [if_neg]
  simp only [Bool.and_eq_true, decide_eq_true_eq]
  exact h

theorem lowCh_fix (c : Char) : lowCh (lowCh c) = lowCh c := by
  by_cases h : 65 ≤ c.toNat ∧ c.toNat ≤ 90
  · have ht := lowCh_toNat_upper h.1 h.2
    apply lowCh_eq_self
    omega
  · rw [lowCh_eq_self h, lowCh_eq_self h]

theorem pyWsChar_lowCh (c : Char) : pyWsChar (lowCh c) = pyWsChar c := by
  by_cases h : 65 ≤ c.toNat ∧ c.toNat ≤ 90
  · have ht := lowCh_toNat_upper h.1 h.2
    have l1 : pyWsChar (lowCh c) = false := by
      simp only [pyWsChar, ht, Bool.or_eq_false_iff, beq_eq_false_iff_ne, Ne]
      omega
    have l2 : pyWsChar c = false := by
      simp only [pyWsChar, Bool.or_eq_false_iff, beq_eq_false_iff_ne, Ne]
      omega
    rw [l1, l2]
  · rw [lowCh_eq_self h]

theorem lowStr_idem (l : List Char) : lowStr (lowStr l) = lowStr l := by
  simp only [lowStr, List.map_map]
  exact List.map_eq_map_iff.mpr (fun a _ => lowCh_fix a)

theorem lowStr_eq_self_iff (l : List Char) :
    lowStr l = l ↔ ∀ c ∈ l, lowCh c = c := by
  induction l with
  | nil => simp [lowStr]
  | cons a r ih =>
    simp only [lowStr, List.map_cons, List.cons.injEq, List.mem_cons]
    rw [show List.map lowCh r = lowStr r from rfl, ih]
    constructor
    · rintro ⟨h1, h2⟩ c hc
      rcases hc with rfl | hc
      · exact h1
      · exact h2 c hc
    · intro h
      exact ⟨h a (Or.inl rfl), fun c hc => h c (Or.inr hc)⟩

theorem head?_dropWhile_not (p : Char → Bool) (l : List Char) :
    ∀ c, (l.dropWhile p).head? = some c → p c = false := by
  induction l with
  | nil =>
    intro c h
    simp [List.dropWhile] at h
  | cons a r ih =>
    intro c h
    rw [List.dropWhile_cons] at h
    split at h
    · exact ih c h
    · rename_i hpa
      simp only [List.head?_cons, Option.some.injEq] at h
      subst h
      exact Bool.not_eq_true _ ▸ (by simpa using hpa)

theorem suffix_getLast? {l X : List Char} (h : l <:+ X) (hne : l ≠ []) :
    X.getLast? = l.getLast? := by
  obtain ⟨pre, rfl⟩ := h
  rw [List.getLast?_append]
  rcases l with _ | ⟨a, r⟩
  · exact absurd rfl hne
  · simp [List.getLast?_cons]

theorem pyStrip_last (l : List Char) :
    ∀ c, (pyStrip l).getLast? = some c → pyWsChar c = false := by
  intro c h
  unfold pyStrip at h
  rw [List.getLast?_reverse] at h
  exact head?_dropWhile_not _ _ c h

theorem pyStrip_head (l : List Char) :
    ∀ c, (pyStrip l).head? = some c → pyWsChar c = false := by
  intro c h
  unfold pyStrip at h
  rw [List.head?_reverse] at h
  set B := ((l.dropWhile pyWsChar).reverse.dropWhile pyWsChar) with hB
  have hBne : B ≠ [] := by
    intro hnil
    rw [hnil] at h
    simp at h
  have hsuf : B <:+ (l.dropWhile pyWsChar).reverse := List.dropWhile_suffix _
  have := suffix_getLast? hsuf hBne
  rw [← this, List.getLast?_reverse] at h
  exact head?_dropWhile_not _ _ c h

theorem dropWhile_eq_self_of_head (p : Char → Bool) (l : List Char)
    (h : ∀ c, l.head? = some c → p c = false) : l.dropWhile p = l := by
  rcases l with _ | ⟨a, r⟩
  · rfl
  · have := h a rfl
    simp [List.dropWhile_cons, this]

theorem pyStrip_eq_self {l : List Char}
    (hh : ∀ c, l.head? = some c → pyWsChar c = false)
    (hl : ∀ c, l.getLast? = some c → pyWsChar c = false) : pyStrip l = l := by
  unfold pyStrip
  rw [dropWhile_eq_self_of_head _ _ hh]
  rw [dropWhile_eq_self_of_head _ _
    (fun c hc => hl c (by rwa [List.head?_reverse] at hc))]
  rw [List.reverse_reverse]

theorem pyStrip_idem (l : List Char) : pyStrip (pyStrip l) = pyStrip l :=
  pyStrip_eq_self (pyStrip_head l) (pyStrip_last l)

theorem norm_orig {s low orig : String} (h : normSkill s = some (low, orig)) :
    normSkill orig = some (low, orig) := by
  unfold normSkill at h ⊢
  by_cases hs : pyStrip s.data = []
  · rw [if_pos hs] at h
    exact absurd h (by simp)
  · rw [if_neg hs, Option.some.injEq, Prod.mk.injEq] at h
    obtain ⟨hlow, horig⟩ := h
    have hod : orig.data = pyStrip s.data := by rw [← horig]
    have hstrip : pyStrip orig.data = pyStrip s.data := by
      rw [hod, pyStrip_idem]
    rw [hstrip, if_neg hs, Option.some.injEq, Prod.mk.injEq]
    constructor
    · exact hlow
    · rw [← hod]

/-! ## Lemmas about the embedded `str.replace` -/

theorem pyReplaceFuel_of_not_sub (pat rep : List Char) (fuel : Nat) :
    ∀ l : List Char, hasSub l pat = false → pyReplaceFuel pat rep fuel l = l := by
  induction fuel with
  | zero => intro l _; rfl
  | succ f ih =>
    intro l h
    rcases l with _ | ⟨c, rest⟩
    · rfl
    · simp only [hasSub, Bool.or_eq_false_iff] at h
      obtain ⟨h1, h2⟩ := h
      simp only [pyReplaceFuel]
      rw [if_neg (by simp [h1]), ih rest h2]

theorem pyReplaceFuel_ne_nil (pat rep : List Char) (hrep : rep ≠ []) (fuel : Nat) :
    ∀ l, l ≠ [] → pyReplaceFuel pat rep fuel l ≠ [] := by
  induction fuel with
  | zero => intro l h; exact h
  | succ f ih =>
    intro l hne
    rcases l with _ | ⟨c, rest⟩
    · exact absurd rfl hne
    · simp only [pyReplaceFuel]
      split
      · intro hnil
        rcases List.append_eq_nil.mp hnil with ⟨hr, _⟩
        exact hrep hr
      · simp

theorem pyReplaceFuel_mem (pat rep : List Char) (fuel : Nat) :
    ∀ l c, c ∈ pyReplaceFuel pat rep fuel l → c ∈ l ∨ c ∈ rep := by
  induction fuel with
  | zero => intro l c h; exact Or.inl h
  | succ f ih =>
    intro l c h
    rcases l with _ | ⟨d, rest⟩
    · simp [pyReplaceFuel] at h
    · simp only [pyReplaceFuel] at h
      split at h
      · rcases List.mem_append.mp h with h | h
        · exact Or.inr h
        · rcases ih _ c h with h | h
          · exact Or.inl (List.mem_of_mem_drop h)
          · exact Or.inr h
      · rcases List.mem_cons.mp h with rfl | h
        · exact Or.inl (List.mem_cons_self _ _)
        · rcases ih rest c h with h | h
          · exact Or.inl (List.mem_cons_of_mem _ h)
          · exact Or.inr h

theorem pyReplaceFuel_head (pat rep : List Char) (hrep : rep ≠ [])
    (hrh : ∀ c, rep.head? = some c → pyWsChar c = false) (fuel : Nat) :
    ∀ l, (∀ c, l.head? = some c → pyWsChar c = false) →
      ∀ c, (pyReplaceFuel pat rep fuel l).head? = some c → pyWsChar c = false := by
  induction fuel with
  | zero => intro l h; exact h
  | succ f ih =>
    intro l hl c hc
    rcases l with _ | ⟨d, rest⟩
    · simp [pyReplaceFuel] at hc
    · simp only [pyReplaceFuel] at hc
      split at hc
      · rw [List.head?_append] at hc
        rcases hre : rep.head? with _ | r0
        · exact absurd (List.head?_eq_none_iff.mp hre) hrep
        · rw [hre] at hc
          simp only [Option.or_some, Option.some.injEq] at hc
          subst hc
          exact hrh r0 hre
      · simp only [List.head?_cons, Option.some.injEq] at hc
        subst hc
        exact hl d rfl

theorem pyReplaceFuel_last (pat rep : List Char) (hrep : rep ≠ [])
    (hrl : ∀ c, rep.getLast? = some c → pyWsChar c = false) (fuel : Nat) :
    ∀ l, (∀ c, l.getLast? = some c → pyWsChar c = false) →
      ∀ c, (pyReplaceFuel pat rep fuel l).getLast? = some c → pyWsChar c = false := by
  induction fuel with
  | zero => intro l h; exact h
  | succ f ih =>
    intro l hl c hc
    rcases l with _ | ⟨d, rest⟩
    · simp [pyReplaceFuel] at hc
    · simp only [pyReplaceFuel] at hc
      split at hc
      · rw [List.getLast?_append] at hc
        rcases hR : pyReplaceFuel pat rep f ((d :: rest).drop pat.length)
            with _ | ⟨x, xs⟩
        · rw [hR] at hc
          simp only [List.getLast?_nil, Option.none_or] at hc
          exact hrl c hc
        · have hdl : ∀ c', ((d :: rest).drop pat.length).getLast? = some c' →
              pyWsChar c' = false := by
            intro c' hc'
            have hsuf : (d :: rest).drop pat.length <:+ (d :: rest) :=
              List.drop_suffix _ _
            have hne : (d :: rest).drop pat.length ≠ [] := by
              intro hnil
              rw [hnil] at hc'
              simp at hc'
            exact hl c' ((suffix_getLast? hsuf hne) ▸ hc')
          rw [hR] at hc
          rcases hg : (x :: xs).getLast? with _ | y
          · exact absurd (List.getLast?_eq_none_iff.mp hg) (by simp)
          · rw [hg] at hc
            simp only [Option.or_some, Option.some.injEq] at hc
            subst hc
            exact ih _ hdl y (by rw [hR, hg])
      · rcases hrest : rest with _ | ⟨e, es⟩
        · subst hrest
          have hR0 : pyReplaceFuel pat rep f [] = [] := by cases f <;> rfl
          rw [hR0] at hc
          simp only [List.getLast?_singleton, Option.some.injEq] at hc
          subst hc
          exact hl d rfl
        · subst hrest
          have hRne : pyReplaceFuel pat rep f (e :: es) ≠ [] :=
            pyReplaceFuel_ne_nil pat rep hrep f _ (by simp)
          have hdr : (d :: pyReplaceFuel pat rep f (e :: es)).getLast? =
              (pyReplaceFuel pat rep f (e :: es)).getLast? := by
            rw [show d :: pyReplaceFuel pat rep f (e :: es) =
              [d] ++ pyReplaceFuel pat rep f (e :: es) from rfl,
              List.getLast?_append]
            rcases hg : (pyReplaceFuel pat rep f (e :: es)).getLast? with _ | y
            · exact absurd (List.getLast?_eq_none_iff.mp hg) hRne
            · rfl
          rw [hdr] at hc
          have hlr : ∀ c', (e :: es).getLast? = some c' → pyWsChar c' = false := by
            intro c' hc'
            apply hl
            rw [show d :: e :: es = [d] ++ e :: es from rfl,
              List.getLast?_append, hc']
            rfl
          exact ih _ hlr c hc

theorem pyReplaceFuel_low (pat rep : List Char) (hrep : lowStr rep = rep)
    (fuel : Nat) (l : List Char) (hl : lowStr l = l) :
    lowStr (pyReplaceFuel pat rep fuel l) = pyReplaceFuel pat rep fuel l := by
  rw [lowStr_eq_self_iff] at hl hrep ⊢
  intro c hc
  rcases pyReplaceFuel_mem pat rep fuel l c hc with h | h
  · exact hl c h
  · exact hrep c h

/-! ## Alias-table lemmas and claims C7, C9 -/

theorem aliasGet_of_none {s : String}
    (h : skillAliases.find? (fun p => p.1 == s) = none) : aliasGet s = s := by
  unfold aliasGet
  rw [h]
  rfl

theorem aliasGet_cases (s : String) :
    aliasGet s = s ∨ ∃ p ∈ skillAliases, aliasGet s = p.2 := by
  rcases hf : skillAliases.find? (fun p => p.1 == s) with _ | q
  · left
    unfold aliasGet
    rw [hf]
    rfl
  · right
    refine ⟨q, List.mem_of_find?_eq_some hf, ?_⟩
    unfold aliasGet
    rw [hf]
    rfl

theorem aliasValues_ok : ∀ p ∈ skillAliases,
    lowStr p.2.data = p.2.data ∧ p.2.data ≠ [] ∧
    p.2.data.head?.any (fun c => !pyWsChar c) = true ∧
    p.2.data.getLast?.any (fun c => !pyWsChar c) = true := by decide

theorem head_ok_of_any {l : List Char}
    (h : l.head?.any (fun c => !pyWsChar c) = true) :
    ∀ c, l.head? = some c → pyWsChar c = false := by
  intro c hc
  rw [hc] at h
  simpa using h

theorem last_ok_of_any {l : List Char}
    (h : l.getLast?.any (fun c => !pyWsChar c) = true) :
    ∀ c, l.getLast? = some c → pyWsChar c = false := by
  intro c hc
  rw [hc] at h
  simpa using h

theorem pyReplace_props (pat rep l : List Char) (hrep_ne : rep ≠ [])
    (hrep_h : ∀ c, rep.head? = some c → pyWsChar c = false)
    (hrep_l : ∀ c, rep.getLast? = some c → pyWsChar c = false)
    (hrep_low : lowStr rep = rep)
    (hne : l ≠ [])
    (hh : ∀ c, l.head? = some c → pyWsChar c = false)
    (hl : ∀ c, l.getLast? = some c → pyWsChar c = false)
    (hlow : lowStr l = l) :
    pyReplace pat rep l ≠ [] ∧
    (∀ c, (pyReplace pat rep l).head? = some c → pyWsChar c = false) ∧
    (∀ c, (pyReplace pat rep l).getLast? = some c → pyWsChar c = false) ∧
    lowStr (pyReplace pat rep l) = pyReplace pat rep l :=
  ⟨pyReplaceFuel_ne_nil pat rep hrep_ne l.length l hne,
   pyReplaceFuel_head pat rep hrep_ne hrep_h l.length l hh,
   pyReplaceFuel_last pat rep hrep_ne hrep_l l.length l hl,
   pyReplaceFuel_low pat rep hrep_low l.length l hlow⟩

/-- C7: the claim asserts `normalize(normalize(s)) = normalize(s)` for
every string. It fails at `s = "react.jsjs"`: the first pass turns it via
`replace('react.js', 'react')` into `"reactjs"`, which the second pass
sends through the alias table to `"react"`. -/
theorem C7_counterexample :
    normalized "react.jsjs" = some "reactjs" ∧
    normalized "reactjs" = some "react" ∧
    (normalized "react.jsjs").bind normalized ≠ normalized "react.jsjs" := by
  exact ⟨by decide, by decide, by decide⟩

/-- Restricted idempotence of `normSkill`: a second application is the
identity on every normalized form that is not an alias-table key and
contains none of the three compound-rule substrings. -/
theorem norm_idem_restricted (s t orig : String)
    (h : normSkill s = some (t, orig))
    (hkey : skillAliases.find? (fun p => p.1 == t) = none)
    (h1 : hasSub t.data "react.js".data = false)
    (h2 : hasSub t.data "next js".data = false)
    (h3 : hasSub t.data "node js".data = false) :
    normSkill t = some (t, t) := by
  unfold normSkill at h
  by_cases hs : pyStrip s.data = []
  · rw [if_pos hs] at h
    exact absurd h (by simp)
  · rw [if_neg hs, Option.some.injEq, Prod.mk.injEq] at h
    obtain ⟨ht, _⟩ := h
    have hb_ne : lowStr (pyStrip s.data) ≠ [] := by
      intro hnil
      rcases hsp : pyStrip s.data with _ | ⟨a, r⟩
      · exact hs hsp
      · rw [hsp] at hnil
        simp [lowStr] at hnil
    have hb_h : ∀ c, (lowStr (pyStrip s.data)).head? = some c →
        pyWsChar c = false := by
      intro c hc
      rw [lowStr, List.head?_map] at hc
      rcases hsp : (pyStrip s.data).head? with _ | c0
      · rw [hsp] at hc
        simp at hc
      · rw [hsp] at hc
        simp only [Option.map_some', Option.some.injEq] at hc
        subst hc
        rw [pyWsChar_lowCh]
        exact pyStrip_head s.data c0 hsp
    have hb_l : ∀ c, (lowStr (pyStrip s.data)).getLast? = some c →
        pyWsChar c = false := by
      intro c hc
      rw [lowStr, List.getLast?_map] at hc
      rcases hsp : (pyStrip s.data).getLast? with _ | c0
      · rw [hsp] at hc
        simp at hc
      · rw [hsp] at hc
        simp only [Option.map_some', Option.some.injEq] at hc
        subst hc
        rw [pyWsChar_lowCh]
        exact pyStrip_last s.data c0 hsp
    have hb_low : lowStr (lowStr (pyStrip s.data)) = lowStr (pyStrip s.data) :=
      lowStr_idem _
    have hb_data : ((⟨lowStr (pyStrip s.data)⟩ : String)).data =
        lowStr (pyStrip s.data) := rfl
    have ha : (aliasGet ⟨lowStr (pyStrip s.data)⟩).data ≠ [] ∧
        (∀ c, (aliasGet ⟨lowStr (pyStrip s.data)⟩).data.head? = some c →
          pyWsChar c = false) ∧
        (∀ c, (aliasGet ⟨lowStr (pyStrip s.data)⟩).data.getLast? = some c →
          pyWsChar c = false) ∧
        lowStr (aliasGet ⟨lowStr (pyStrip s.data)⟩).data =
          (aliasGet ⟨lowStr (pyStrip s.data)⟩).data := by
      rcases aliasGet_cases ⟨lowStr (pyStrip s.data)⟩ with hcase | ⟨p, hp, hcase⟩
      · rw [hcase, hb_data]
        exact ⟨hb_ne, hb_h, hb_l, hb_low⟩
      · rw [hcase]
        obtain ⟨v_low, v_ne, v_h, v_l⟩ := aliasValues_ok p hp
        exact ⟨v_ne, head_ok_of_any v_h, last_ok_of_any v_l, v_low⟩
    obtain ⟨ha_ne, ha_h, ha_l, ha_low⟩ := ha
    obtain ⟨s1_ne, s1_h, s1_l, s1_low⟩ :=
      pyReplace_props "react.js".data "react".data _ (by decide)
        (head_ok_of_any (by decide)) (last_ok_of_any (by decide)) (by decide)
        ha_ne ha_h ha_l ha_low
    obtain ⟨s2_ne, s2_h, s2_l, s2_low⟩ :=
      pyReplace_props "next js".data "next.js".data _ (by decide)
        (head_ok_of_any (by decide)) (last_ok_of_any (by decide)) (by decide)
        s1_ne s1_h s1_l s1_low
    obtain ⟨s3_ne, s3_h, s3_l, s3_low⟩ :=
      pyReplace_props "node js".data "node.js".data _ (by decide)
        (head_ok_of_any (by decide)) (last_ok_of_any (by decide)) (by decide)
        s2_ne s2_h s2_l s2_low
    have htd : t.data = pyReplace "node js".data "node.js".data
        (pyReplace "next js".data "next.js".data
          (pyReplace "react.js".data "react".data
            (aliasGet ⟨lowStr (pyStrip s.data)⟩).data)) := by
      rw [← ht]
    have ht_ne : t.data ≠ [] := by rw [htd]; exact s3_ne
    have ht_h : ∀ c, t.data.head? = some c → pyWsChar c = false := by
      rw [htd]; exact s3_h
    have ht_l : ∀ c, t.data.getLast? = some c → pyWsChar c = false := by
      rw [htd]; exact s3_l
    have ht_low : lowStr t.data = t.data := by rw [htd]; exact s3_low
    have hstrip_t : pyStrip t.data = t.data := pyStrip_eq_self ht_h ht_l
    have heta : (⟨t.data⟩ : String) = t := by cases t; rfl
    unfold normSkill
    rw [if_neg (by rw [hstrip_t]; exact ht_ne)]
    rw [hstrip_t, ht_low, heta, aliasGet_of_none hkey]
    rw [show pyReplace "react.js".data "react".data t.data = t.data from
      pyReplaceFuel_of_not_sub _ _ _ _ h1]
    rw [show pyReplace "next js".data "next.js".data t.data = t.data from
      pyReplaceFuel_of_not_sub _ _ _ _ h2]
    rw [show pyReplace "node js".data "node.js".data t.data = t.data from
      pyReplaceFuel_of_not_sub _ _ _ _ h3]

/-- C7 (amended): `norm` returns null for every input that is empty
after trimming, and the normalization is idempotent on every input whose
normalized form is not itself an alias-table key and contains none of
the three compound-rule substrings `"react.js"`, `"next js"`,
`"node js"`; on such inputs a second application returns the normalized
string unchanged. (The counterexample shows the extra hypotheses on the
idempotence conjunct are necessary.) -/
theorem C7_norm_idem_amended :
    (∀ s : String, pyStrip s.data = [] → normSkill s = none) ∧
    (∀ s t orig : String, normSkill s = some (t, orig) →
      skillAliases.find? (fun p => p.1 == t) = none →
      hasSub t.data "react.js".data = false →
      hasSub t.data "next js".data = false →
      hasSub t.data "node js".data = false →
      normSkill t = some (t, t)) := by
  constructor
  · intro s hs
    unfold normSkill
    rw [if_pos hs]
  · intro s t orig h hkey h1 h2 h3
    exact norm_idem_restricted s t orig h hkey h1 h2 h3

/-- C7 witness: the null-on-empty conjunct applied at a whitespace-only
string, and the amended idempotence applied at `" Python "`, whose
normalized form `"python"` is a fixed point of a second pass. -/
theorem C7_witness :
    normSkill "   " = none ∧ normSkill "python" = some ("python", "python") :=
  ⟨C7_norm_idem_amended.1 "   " (by decide),
   C7_norm_idem_amended.2 " Python " "python" "Python" (by decide) (by decide)
     (by decide) (by decide) (by decide)⟩

/-! ## Claim C9 — categorization invariants -/

theorem filterMap_names_sublist (g : String → Option (String × List String))
    (hg : ∀ n p, g n = some p → p.1 = n) :
    ∀ names : List String, ((names.filterMap g).map Prod.fst).Sublist names := by
  intro names
  induction names with
  | nil => simp
  | cons n rest ih =>
    rw [List.filterMap_cons]
    rcases hgn : g n with _ | p
    · exact ih.cons n
    · rw [List.map_cons, hg n p hgn]
      exact ih.cons₂ n

theorem dedupFirstAux_subset (l : List String) :
    ∀ seen x, x ∈ dedupFirstAux seen l → x ∈ l := by
  induction l with
  | nil =>
    intro seen x h
    simp [dedupFirstAux] at h
  | cons y ys ih =>
    intro seen x h
    simp only [dedupFirstAux] at h
    split at h
    · exact List.mem_cons_of_mem _ (ih seen x h)
    · rcases List.mem_cons.mp h with rfl | h
      · exact List.mem_cons_self _ _
      · exact List.mem_cons_of_mem _ (ih _ x h)

theorem dedupFirstAux_not_mem_seen (l : List String) :
    ∀ seen x, x ∈ dedupFirstAux seen l → x ∉ seen := by
  induction l with
  | nil =>
    intro seen x h
    simp [dedupFirstAux] at h
  | cons y ys ih =>
    intro seen x h
    simp only [dedupFirstAux] at h
    split at h
    · exact ih seen x h
    · rename_i hyseen
      rcases List.mem_cons.mp h with rfl | h
      · intro hx
        exact hyseen (by simpa using hx)
      · intro hx
        exact (ih _ x h) (List.mem_cons_of_mem _ hx)

theorem dedupFirstAux_nodup (l : List String) :
    ∀ seen, (dedupFirstAux seen l).Nodup := by
  induction l with
  | nil =>
    intro seen
    simp [dedupFirstAux]
  | cons y ys ih =>
    intro seen
    simp only [dedupFirstAux]
    split
    · exact ih seen
    · rw [List.nodup_cons]
      refine ⟨?_, ih _⟩
      intro hy
      exact (dedupFirstAux_not_mem_seen ys _ y hy) (List.mem_cons_self _ _)

theorem dedupFirstAux_mem_of (l : List String) :
    ∀ seen x, x ∈ l → x ∉ seen → x ∈ dedupFirstAux seen l := by
  induction l with
  | nil =>
    intro seen x h _
    exact absurd h (List.not_mem_nil x)
  | cons y ys ih =>
    intro seen x h hseen
    simp only [dedupFirstAux]
    split
    · rename_i hyseen
      rcases List.mem_cons.mp h with rfl | h
      · exact absurd (by simpa using hyseen) hseen
      · exact ih seen x h hseen
    · rcases List.mem_cons.mp h with rfl | h
      · exact List.mem_cons_self _ _
      · by_cases hxy : x = y
        · subst hxy
          exact List.mem_cons_self _ _
        · refine List.mem_cons_of_mem _ (ih _ x h ?_)
          intro hx
          rcases List.mem_cons.mp hx with h' | h'
          · exact hxy h'
          · exact hseen h'

set_option maxHeartbeats 1000000 in
theorem assignCategory_mem (low : String) :
    assignCategory low ∈ categoryNames := by
  unfold assignCategory
  split_ifs <;> decide

theorem categorize_mem_char {skills : List String}
    {p : String × List String} (hp : p ∈ categorize_skills skills) :
    categoryBucket p.1 skills ≠ [] ∧
      p.2 = dedupFirst (categoryBucket p.1 skills) := by
  rw [categorize_skills] at hp
  obtain ⟨name, _, hg⟩ := List.mem_filterMap.mp hp
  split at hg
  · exact absurd hg (by simp)
  · rename_i hbne
    rw [Option.some.injEq] at hg
    rw [← hg]
    exact ⟨hbne, rfl⟩

/-- C9: `categorize_skills` output lists categories in the fixed display
order with no duplicates and no empty category; every listed skill string
is placed according to the single category its normalized form is
assigned to; each category's list is the de-duplication, keeping first
occurrences, of the original-cased skills assigned to it in input order;
and, conversely (coverage), every input skill with a defined
normalization is placed: its original-cased form appears in the output
under exactly the category assigned to its normalized form — which is
"Other" precisely when the normalized form is in no membership set, since
`assignCategory` returns "Other" exactly on such inputs. -/
theorem C9_categorize_invariants (skills : List String) :
    ((categorize_skills skills).map Prod.fst).Sublist categoryNames ∧
    (∀ p ∈ categorize_skills skills, p.2 ≠ [] ∧ p.2.Nodup) ∧
    (∀ p ∈ categorize_skills skills, ∀ x ∈ p.2,
      ∃ low : String, normSkill x = some (low, x) ∧ assignCategory low = p.1) ∧
    (∀ p ∈ categorize_skills skills,
      p.2 = dedupFirst (categoryBucket p.1 skills)) ∧
    (∀ s ∈ skills, ∀ low orig : String, normSkill s = some (low, orig) →
      ∃ p ∈ categorize_skills skills,
        p.1 = assignCategory low ∧ orig ∈ p.2) := by
  refine ⟨?_, ?_, ?_, ?_, ?_⟩
  · apply filterMap_names_sublist
    intro n p hg
    split at hg
    · exact absurd hg (by simp)
    · rw [Option.some.injEq] at hg
      rw [← hg]
  · intro p hp
    obtain ⟨hbne, hp2⟩ := categorize_mem_char hp
    constructor
    · rw [hp2]
      rcases hb : categoryBucket p.1 skills with _ | ⟨x, xs⟩
      · exact absurd hb hbne
      · simp [dedupFirst, dedupFirstAux]
    · rw [hp2]
      exact dedupFirstAux_nodup _ []
  · intro p hp x hx
    obtain ⟨_, hp2⟩ := categorize_mem_char hp
    rw [hp2] at hx
    have hxb : x ∈ categoryBucket p.1 skills := dedupFirstAux_subset _ [] x hx
    rw [categoryBucket] at hxb
    obtain ⟨s, _, hf⟩ := List.mem_filterMap.mp hxb
    rcases hn : normSkill s with _ | ⟨low, orig⟩
    · rw [hn] at hf
      simp at hf
    · rw [hn] at hf
      change (if assignCategory low == p.1 then some orig else none) = some x at hf
      split at hf
      · rename_i hassign
        rw [Option.some.injEq] at hf
        subst hf
        exact ⟨low, norm_orig hn, by simpa using hassign⟩
      · exact absurd hf (by simp)
  · intro p hp
    exact (categorize_mem_char hp).2
  · intro s hs low orig hn
    have hb : orig ∈ categoryBucket (assignCategory low) skills := by
      rw [categoryBucket]
      refine List.mem_filterMap.mpr ⟨s, hs, ?_⟩
      rw [hn]
      change (if assignCategory low == assignCategory low then some orig
        else none) = some orig
      simp
    have hbne : categoryBucket (assignCategory low) skills ≠ [] := by
      intro hnil
      rw [hnil] at hb
      exact absurd hb (List.not_mem_nil orig)
    refine ⟨(assignCategory low,
      dedupFirst (categoryBucket (assignCategory low) skills)), ?_, rfl, ?_⟩
    · rw [categorize_skills]
      refine List.mem_filterMap.mpr ⟨assignCategory low,
        assignCategory_mem low, ?_⟩
      rw [if_neg hbne]
    · exact dedupFirstAux_mem_of _ [] orig hb (by simp)

/-- C9 witness: the known skill `"python"` is placed in exactly the
`"Languages"` category, and the unknown skill `"zzqux"` is placed — it
appears in the output, under the category its normalized form is
assigned to, which is `"Other"`. -/
theorem C9_witness :
    (∃ low : String, normSkill "python" = some (low, "python") ∧
      assignCategory low = "Languages") ∧
    (∃ p ∈ categorize_skills ["zzqux"],
      p.1 = assignCategory "zzqux" ∧ "zzqux" ∈ p.2) :=
  ⟨(C9_categorize_invariants ["python"]).2.2.1 ("Languages", ["python"])
      (by decide) "python" (by decide),
   (C9_categorize_invariants ["zzqux"]).2.2.2.2 "zzqux" (by decide)
      "zzqux" "zzqux" (by decide)⟩
